import Mathlib

/-
Verification development for the batch image transformation pipeline of
src/image_optimizer.py.

Modelling conventions:
* paths, filenames and GUI text fields are `List Char`;
* the filesystem below the selected directory is an explicit listing tree
  (`Entries`), mirroring what os.listdir / os.walk observe;
* the PIL image codec and the filesystem side effects inside
  `optimize_image` are an environment of fallible operations (`CodecEnv`),
  since PIL itself is an external collaborator of the repository;
* Python's `os.path` helpers (posix flavour) are embedded directly.
-/

set_option maxRecDepth 10000

/-- The directory/basename split performed by posixpath: the first component
is everything up to and including the last slash (empty when there is no
slash), the second is the remainder.  This mirrors the `sepIndex` part of
`genericpath._splitext`, which os.path.splitext delegates to. -/
def splitAtLastSep : List Char → List Char × List Char
  | [] => ([], [])
  | c :: rest =>
    if rest.contains '/' then
      let p := splitAtLastSep rest
      (c :: p.1, p.2)
    else if c = '/' then ([c], rest)
    else ([], c :: rest)

/-- Split a character list at its last dot: the part before the last dot and
the suffix starting at that dot (hence the suffix holds no further dot), or
`none` when there is no dot at all.  This mirrors the `dotIndex` part of
`genericpath._splitext`. -/
def splitAtLastDot : List Char → Option (List Char × List Char)
  | [] => none
  | c :: rest =>
    match splitAtLastDot rest with
    | some p => some (c :: p.1, p.2)
    | none => if c = '.' then some ([], c :: rest) else none

/-- os.path.splitext restricted to a basename (slash-free): dots leading the
basename never start an extension (the `filenameIndex` loop of
`genericpath._splitext`); past that prefix the extension begins at the last
dot. -/
def splitextBase (b : List Char) : List Char × List Char :=
  match splitAtLastDot (b.dropWhile (fun c => c = '.')) with
  | some p => (b.takeWhile (fun c => c = '.') ++ p.1, p.2)
  | none => (b, [])

/-- os.path.splitext (posix): split a path into (root, extension).  The
extension starts at the last dot that lies after the last slash and after
the leading-dot run of the basename. -/
def splitext (p : List Char) : List Char × List Char :=
  let db := splitAtLastSep p
  let se := splitextBase db.2
  (db.1 ++ se.1, se.2)

/-- os.path.join (posix) on two components: an absolute second component
replaces the first; otherwise a slash is inserted unless the first component
is empty or already ends with one. -/
def joinPath (a b : List Char) : List Char :=
  if b.head? = some '/' then b
  else if a = [] ∨ a.getLast? = some '/' then a ++ b
  else a ++ '/' :: b

/-- The extension set of `is_image_file` (src/image_optimizer.py line 33). -/
def image_extensions : List (List Char) :=
  [".jpg".toList, ".jpeg".toList, ".png".toList, ".gif".toList,
   ".bmp".toList, ".tiff".toList, ".webp".toList]

/-- `is_image_file` (src/image_optimizer.py lines 31-34): the lower-cased
extension of the filename is a member of the extension set. -/
def is_image_file (filename : List Char) : Bool :=
  image_extensions.contains ((splitext filename).2.map Char.toLower)

/-- The literal ".webp" appended by optimize_image. -/
def webpSuffix : List Char := ['.', 'w', 'e', 'b', 'p']

/-- The output-path rewrite inside `optimize_image` (lines 23-26): when
converting, the extension is stripped and ".webp" appended; otherwise the
output path is left unchanged. -/
def final_output_path (output_path : List Char) (convert_to_webp : Bool) : List Char :=
  if convert_to_webp then (splitext output_path).1 ++ webpSuffix else output_path

-- Fidelity checks against the behaviour of the Python originals.
example : splitext "a.jpg".toList = ("a".toList, ".jpg".toList) := by decide
example : splitext ".bashrc".toList = (".bashrc".toList, []) := by decide
example : splitext "/d.x/file".toList = ("/d.x/file".toList, []) := by decide
example : splitext "/r/sub/a.tar.gz".toList = ("/r/sub/a.tar".toList, ".gz".toList) := by decide
example : splitext "..jpg".toList = ("..jpg".toList, []) := by decide
example : is_image_file "PHOTO.JPG".toList = true := by decide
example : is_image_file "notes.txt".toList = false := by decide
example : is_image_file "photo".toList = false := by decide
example : joinPath "/r".toList "a.jpg".toList = "/r/a.jpg".toList := by decide
example : joinPath "/r/".toList "a.jpg".toList = "/r/a.jpg".toList := by decide
example : final_output_path "/r/optimized/a.jpg".toList true = "/r/optimized/a.webp".toList := by
  decide
example : final_output_path "/r/optimized/a.jpg".toList false = "/r/optimized/a.jpg".toList := by
  decide

/-! ## GUI input parsing and pre-flight validation (lines 313-324) -/

/-- Whitespace accepted around a numeral by Python's int(). -/
def isPySpace (c : Char) : Bool :=
  c == ' ' || c == '\t' || c == '\n' || c == '\r'

/-- Strip surrounding whitespace, as Python's int() does. -/
def trimWS (l : List Char) : List Char :=
  ((l.dropWhile isPySpace).reverse.dropWhile isPySpace).reverse

/-- A non-empty run of decimal digits, read as a number. -/
def parseDigits (l : List Char) : Option Nat :=
  if l ≠ [] ∧ l.all Char.isDigit then
    some (l.foldl (fun a c => a * 10 + (c.toNat - 48)) 0)
  else none

/-- Python's int() applied to a text field: surrounding whitespace, an
optional sign, then decimal digits; anything else raises ValueError
(modelled as `none`).  Scope: ASCII numerals, which is all the GUI fields
and the claims exercise (underscore grouping and non-ASCII digits are not
modelled). -/
def pyInt (s : List Char) : Option Int :=
  match trimWS s with
  | '+' :: rest => (parseDigits rest).map (fun n => (n : Int))
  | '-' :: rest => (parseDigits rest).map (fun n => -(n : Int))
  | rest => (parseDigits rest).map (fun n => (n : Int))

/-- One GUI field as read at lines 314-316: `int(text or default)`.  The
empty string is the only falsy string, so it selects the integer default,
and int() of an int is that int. -/
def fieldValue (text : List Char) (dflt : Int) : Option Int :=
  if text = [] then some dflt else pyInt text

/-- The try-block of start_optimization (lines 313-324): parse the three
fields (a ValueError aborts), then reject non-positive dimensions.  Note
that no constraint at all is placed on the parsed quality value. -/
def preflight (widthText heightText qualityText : List Char) :
    Option (Int × Int × Int) :=
  match fieldValue widthText 800, fieldValue heightText 800,
        fieldValue qualityText 85 with
  | some w, some h, some q => if w ≤ 0 ∨ h ≤ 0 then none else some (w, h, q)
  | _, _, _ => none

example : pyInt "85".toList = some 85 := by decide
example : pyInt " 150 ".toList = some 150 := by decide
example : pyInt "-3".toList = some (-3) := by decide
example : pyInt "8a".toList = none := by decide
example : pyInt "".toList = none := by decide
example : preflight [] [] [] = some (800, 800, 85) := by decide
example : preflight "0".toList "600".toList "85".toList = none := by decide
example : preflight "800".toList "800".toList "150".toList = some (800, 800, 150) := by decide

/-! ## The filesystem model and file discovery (lines 285-305) -/

/-- A directory listing: either exhausted, or a regular file followed by the
remaining entries, or a subdirectory (with its own listing) followed by the
remaining entries.  This is what os.listdir / os.walk observe below the
selected directory. -/
inductive Entries where
  | nil : Entries
  | file : List Char → Entries → Entries
  | dir : List Char → Entries → Entries → Entries
deriving DecidableEq

/-- os.listdir of a directory paired with the os.path.isfile test the
non-recursive branch performs on each name: every entry name, tagged with
whether it is a regular file. -/
def listdir : Entries → List (List Char × Bool)
  | .nil => []
  | .file n rest => (n, true) :: listdir rest
  | .dir n _ rest => (n, false) :: listdir rest

/-- The filenames of the regular files of one listing, in order (the `files`
component of an os.walk triple). -/
def filesOf : Entries → List (List Char)
  | .nil => []
  | .file n rest => n :: filesOf rest
  | .dir _ _ rest => filesOf rest

/-- The subdirectory traversal of os.walk (top-down): for each subdirectory,
first the files of that subdirectory, then its own subdirectories,
recursively.  Each yielded pair is (relative directory prefix ending in a
slash, filename). -/
def walkSub : List Char → Entries → List (List Char × List Char)
  | _, .nil => []
  | pre, .file _ rest => walkSub pre rest
  | pre, .dir d sub rest =>
      ((filesOf sub).map (fun m => (pre ++ d ++ ['/'], m))
        ++ walkSub (pre ++ d ++ ['/']) sub)
      ++ walkSub pre rest

/-- All (relative directory prefix, filename) pairs that os.walk yields
below a directory, top-down: the files of the root first, then each
subdirectory in turn.  `os.path.relpath(os.path.join(root, filename),
directory)` is the concatenation of the two components. -/
def walkPairs (pre : List Char) (es : Entries) : List (List Char × List Char) :=
  (filesOf es).map (fun n => (pre, n)) ++ walkSub pre es

/-- get_all_image_files (src/image_optimizer.py lines 285-305): recursive
mode walks the whole tree and keeps image files, pairing the full path with
the path relative to the scanned directory; non-recursive mode keeps the
direct children that are regular image files, whose relative path is the
bare filename. -/
def get_all_image_files (directory : List Char) (tree : Entries)
    (recursive : Bool) : List (List Char × List Char) :=
  if recursive then
    (walkPairs [] tree).filterMap (fun pr =>
      if is_image_file pr.2 then
        some (joinPath directory (pr.1 ++ pr.2), pr.1 ++ pr.2)
      else none)
  else
    (listdir tree).filterMap (fun nf =>
      if nf.2 && is_image_file nf.1 then
        some (joinPath directory nf.1, nf.1)
      else none)

/-- The sample tree of the spec's discovery property: /r/a.jpg and
/r/sub/b.png. -/
def sampleTree : Entries :=
  .file "a.jpg".toList (.dir "sub".toList (.file "b.png".toList .nil) .nil)

example :
    get_all_image_files "/r".toList sampleTree false
      = [("/r/a.jpg".toList, "a.jpg".toList)] := by decide
example :
    get_all_image_files "/r".toList sampleTree true
      = [("/r/a.jpg".toList, "a.jpg".toList),
         ("/r/sub/b.png".toList, "sub/b.png".toList)] := by decide
example :
    get_all_image_files "/r".toList
      (.dir "photos.jpg".toList .nil .nil) false = [] := by decide

/-! ## The per-file transform: optimize_image (lines 16-29) -/

/-- Modelled from the spec: PIL's `Image.thumbnail`, the image codec's
resize-to-fit primitive invoked at line 21, is an external collaborator and
not part of the repository.  Per spec sections 4.2, 6 and 8: an image
already within the bounding box is left at its original size (never
upscaled); otherwise the image is scaled down preserving aspect ratio so
that one dimension exactly hits its bound, the other being rounded
consistently (floor). -/
def resize_to_fit (w h bw bh : Nat) : Nat × Nat :=
  if w ≤ bw ∧ h ≤ bh then (w, h)
  else if bw * h ≤ bh * w then (bw, h * bw / w)
  else (w * bh / h, bh)

/-- The value optimize_image hands back to its caller: the Python function
returns the boolean True on success and `str(e)` of the caught exception on
failure. -/
inductive OptResult where
  | retTrue : OptResult
  | retErr : List Char → OptResult
deriving DecidableEq

/-- The fallible external operations optimize_image performs for one input
file: `os.makedirs(dirname(output_path), exist_ok=True)`, `Image.open`
(yielding the image's dimensions, or failing for a missing or undecodable
file), and `img.save` (which may fail on write).  Each failure carries the
exception's message `str(e)`. -/
structure CodecEnv where
  makedirs : Except (List Char) Unit
  openImage : Except (List Char) (Nat × Nat)
  save : List Char → Nat × Nat → Int → Except (List Char) Unit

/-- The body of optimize_image's try-block (lines 19-27), sequencing the
fallible steps exactly as the source does: makedirs, open, thumbnail,
output-path rewrite when converting, save.  On success it returns the path
written and the saved dimensions. -/
def optimize_image_run (env : CodecEnv) (max_width max_height : Nat)
    (quality : Int) (convert_to_webp : Bool) (output_path : List Char) :
    Except (List Char) (List Char × Nat × Nat) := do
  env.makedirs
  let dims ← env.openImage
  let newDims := resize_to_fit dims.1 dims.2 max_width max_height
  let outPath := final_output_path output_path convert_to_webp
  env.save outPath newDims quality
  pure (outPath, newDims)

/-- optimize_image (lines 16-29): the try-block body wrapped in
`except Exception as e: return str(e)` — success yields the literal True,
any raised exception is caught and its message returned. -/
def optimize_image (env : CodecEnv) (max_width max_height : Nat)
    (quality : Int) (convert_to_webp : Bool) (output_path : List Char) :
    OptResult :=
  match optimize_image_run env max_width max_height quality convert_to_webp
      output_path with
  | .ok _ => .retTrue
  | .error e => .retErr e

/-- A codec environment in which every operation succeeds. -/
def okCodec : CodecEnv :=
  { makedirs := .ok ()
    openImage := .ok (640, 480)
    save := fun _ _ _ => .ok () }

/-- A codec environment whose open step fails (missing or corrupt file). -/
def badOpenCodec : CodecEnv :=
  { makedirs := .ok ()
    openImage := .error "cannot identify image file".toList
    save := fun _ _ _ => .ok () }

example :
    optimize_image okCodec 800 800 85 true "/r/optimized/a.jpg".toList
      = .retTrue := by decide
example :
    optimize_image badOpenCodec 800 800 85 true "/r/optimized/a.jpg".toList
      = .retErr "cannot identify image file".toList := by decide

/-! ## The batch loop of start_optimization (lines 326-360) -/

/-- The observable state the loop threads: the processed and error counters,
every optimize_image call made (input path, output path argument, relative
path), the per-file progress reports (`progress_bar.setValue(processed)` /
status label, line 352-353), and the per-file error reports
(`show_error(f"Error processing {rel_path}: {result}")`, line 348, recorded
as the (relative path, message) pair the format string interpolates). -/
structure LoopState where
  processed : Nat
  errors : Nat
  callLog : List (List Char × List Char × List Char)
  progressEvents : List Nat
  errorLog : List (List Char × List Char)
deriving DecidableEq

/-- The constant "optimized" of line 342. -/
def optimizedDirName : List Char := "optimized".toList

/-- The output path derived at line 342 for a discovered file:
`os.path.join(directory, "optimized", rel_path)` — the same derivation in
both the recursive and the flat mode. -/
def outPathOf (directory rel : List Char) : List Char :=
  joinPath (joinPath directory optimizedDirName) rel

/-- One iteration of the loop at lines 340-354: derive
`os.path.join(directory, "optimized", rel_path)`, call optimize_image, on a
non-True result record the error, then bump the processed counter and
report progress. -/
def batchStep (directory : List Char) (env : List Char → CodecEnv)
    (mw mh : Nat) (q : Int) (webp : Bool)
    (st : LoopState) (pr : List Char × List Char) : LoopState :=
  let output_path := outPathOf directory pr.2
  let result := optimize_image (env pr.1) mw mh q webp output_path
  let st1 := { st with callLog := st.callLog ++ [(pr.1, output_path, pr.2)] }
  let st2 :=
    match result with
    | .retTrue => st1
    | .retErr m =>
        { st1 with
            errors := st1.errors + 1
            errorLog := st1.errorLog ++ [(pr.2, m)] }
  { st2 with
      processed := st2.processed + 1
      progressEvents := st2.progressEvents ++ [st2.processed + 1] }

/-- The loop state before the first file (lines 335-338). -/
def initLoopState : LoopState := ⟨0, 0, [], [], []⟩

/-- The whole per-file loop of start_optimization over the discovered
files, in list order. -/
def processFiles (directory : List Char) (env : List Char → CodecEnv)
    (mw mh : Nat) (q : Int) (webp : Bool)
    (files : List (List Char × List Char)) : LoopState :=
  files.foldl (batchStep directory env mw mh q webp) initLoopState

/-- The four ways start_optimization returns to its caller: the
invalid-directory early return (lines 309-311), the ValueError early return
(lines 322-324), the no-images early return (lines 331-333), and normal
completion of the loop with its final state. -/
inductive BatchOutcome where
  | invalidDir : BatchOutcome
  | invalidInput : BatchOutcome
  | noImages : BatchOutcome
  | completed : LoopState → BatchOutcome
deriving DecidableEq

/-- start_optimization (lines 307-360): directory check, pre-flight parse
and validation, discovery, then the per-file loop.  The parsed dimensions
are positive after pre-flight, so carrying them as Nat is faithful. -/
def start_optimization (dirExists : Bool) (directory : List Char)
    (tree : Entries) (env : List Char → CodecEnv)
    (widthText heightText qualityText : List Char)
    (recursive webp : Bool) : BatchOutcome :=
  if ¬ dirExists then .invalidDir
  else
    match preflight widthText heightText qualityText with
    | none => .invalidInput
    | some (mw, mh, q) =>
      let image_files := get_all_image_files directory tree recursive
      if image_files.length = 0 then .noImages
      else .completed (processFiles directory env mw.toNat mh.toNat q webp image_files)

example :
    start_optimization true "/r".toList sampleTree (fun _ => okCodec)
      "800".toList "800".toList "85".toList true true
      = .completed
          ⟨2, 0,
           [("/r/a.jpg".toList, "/r/optimized/a.jpg".toList, "a.jpg".toList),
            ("/r/sub/b.png".toList, "/r/optimized/sub/b.png".toList,
             "sub/b.png".toList)],
           [1, 2], []⟩ := by decide
example :
    start_optimization true "/r".toList sampleTree (fun _ => okCodec)
      "800".toList "800".toList "abc".toList true true = .invalidInput := by
  decide

/-- The outcome classification the loop applies to one file (line 347's
`if result is not True`): `none` for a successful transform, and the
(relative path, message) pair recorded for a failed one. -/
def errEntryOf (directory : List Char) (env : List Char → CodecEnv)
    (mw mh : Nat) (q : Int) (webp : Bool) (pr : List Char × List Char) :
    Option (List Char × List Char) :=
  match optimize_image (env pr.1) mw mh q webp (outPathOf directory pr.2) with
  | .retTrue => none
  | .retErr m => some (pr.2, m)

/-- How one pass of the loop transforms an arbitrary starting state: the
processed counter grows by the file count, every file contributes exactly
one optimize_image call to the call log, the failures contribute their
(relative path, message) entries in order, and the progress reports count
up from the starting processed value. -/
lemma foldl_batchStep (directory : List Char) (env : List Char → CodecEnv)
    (mw mh : Nat) (q : Int) (webp : Bool) :
    ∀ (files : List (List Char × List Char)) (st : LoopState),
      files.foldl (batchStep directory env mw mh q webp) st =
        { processed := st.processed + files.length
          errors := st.errors +
            (files.filterMap (errEntryOf directory env mw mh q webp)).length
          callLog := st.callLog ++
            files.map (fun pr => (pr.1, outPathOf directory pr.2, pr.2))
          progressEvents := st.progressEvents ++
            List.range' (st.processed + 1) files.length
          errorLog := st.errorLog ++
            files.filterMap (errEntryOf directory env mw mh q webp) } := by
  intro files
  induction files with
  | nil =>
    intro st
    simp
  | cons pr rest ih =>
    intro st
    rw [List.foldl_cons, ih]
    cases hres : optimize_image (env pr.1) mw mh q webp (outPathOf directory pr.2) with
    | retTrue =>
      simp [batchStep, errEntryOf, hres, LoopState.mk.injEq, List.range'_succ,
        List.filterMap_cons]
      omega
    | retErr m =>
      simp [batchStep, errEntryOf, hres, LoopState.mk.injEq, List.range'_succ,
        List.filterMap_cons]
      omega

/-! ## Claim theorems: the batch loop -/

/-- C1: the claim states that a quality value outside [1,100] makes the run
abort with an InvalidInputError before any file is processed.  Evaluating
the code at the quality text "150" (with valid dimensions, an existing
directory holding one image, and a healthy codec) shows the opposite: the
try-block at lines 313-324 checks only the dimensions, pre-flight accepts
quality 150, the file's transform is attempted and progress is reported. -/
theorem C1_out_of_range_quality_not_rejected :
    preflight "800".toList "800".toList "150".toList = some (800, 800, 150) ∧
    start_optimization true "/r".toList (.file "a.jpg".toList .nil)
        (fun _ => okCodec) "800".toList "800".toList "150".toList true true
      = .completed
          ⟨1, 0,
           [("/r/a.jpg".toList, "/r/optimized/a.jpg".toList, "a.jpg".toList)],
           [1], []⟩ := by decide

/-- C2 counterexample: in flat (non-recursive) mode, for directory "/r"
holding the single image "a.jpg", the code derives the output path
"/r/optimized/a.jpg" (line 342) — the filename keeps no "optimized_"
prefix.  The claimed flat-mode path output_root/("optimized_" + filename)
differs from it under both readings of output_root (the scanned directory,
or the directory/optimized root the recursive half fixes). -/
theorem C2_flat_mode_no_prefix_counterexample :
    start_optimization true "/r".toList (.file "a.jpg".toList .nil)
        (fun _ => okCodec) "800".toList "800".toList "85".toList false true
      = .completed
          ⟨1, 0,
           [("/r/a.jpg".toList, "/r/optimized/a.jpg".toList, "a.jpg".toList)],
           [1], []⟩ ∧
    joinPath "/r".toList "optimized_a.jpg".toList
      = "/r/optimized_a.jpg".toList ∧
    joinPath (joinPath "/r".toList optimizedDirName) "optimized_a.jpg".toList
      = "/r/optimized/optimized_a.jpg".toList ∧
    "/r/optimized/a.jpg".toList ≠ "/r/optimized_a.jpg".toList ∧
    "/r/optimized/a.jpg".toList ≠ "/r/optimized/optimized_a.jpg".toList := by
  decide

/-- C2 (amended): in both modes the output path for a discovered file equals
os.path.join(directory, "optimized", relative_path) — i.e. output_root /
relative_path with output_root = directory/optimized; in flat mode the
relative path is the bare filename and no "optimized_" prefix is applied. -/
theorem C2_output_path_derivation :
    ∀ (directory : List Char) (env : List Char → CodecEnv) (mw mh : Nat)
      (q : Int) (webp : Bool) (files : List (List Char × List Char)),
      (processFiles directory env mw mh q webp files).callLog
        = files.map (fun pr => (pr.1, outPathOf directory pr.2, pr.2)) := by
  intro directory env mw mh q webp files
  rw [processFiles, foldl_batchStep]
  simp [initLoopState]

/-- C3: for every discovered-file list and every transform behaviour, every
file is attempted (the call log lists exactly the discovered files, in
order, regardless of which transforms fail), each failing file contributes
its (relative path, message) entry to the error report, and the loop runs
to completion with the error counter matching the failures. -/
theorem C3_failure_containment :
    ∀ (directory : List Char) (env : List Char → CodecEnv) (mw mh : Nat)
      (q : Int) (webp : Bool) (files : List (List Char × List Char)),
      (processFiles directory env mw mh q webp files).callLog.map
          (fun c => (c.1, c.2.2)) = files ∧
      (processFiles directory env mw mh q webp files).errorLog
        = files.filterMap (errEntryOf directory env mw mh q webp) ∧
      (processFiles directory env mw mh q webp files).errors
        = (files.filterMap (errEntryOf directory env mw mh q webp)).length := by
  intro directory env mw mh q webp files
  rw [processFiles, foldl_batchStep]
  simp [initLoopState]
  have hcomp :
      ((fun c : List Char × List Char × List Char => (c.1, c.2.2)) ∘
        fun pr : List Char × List Char =>
          (pr.1, outPathOf directory pr.2, pr.2)) = fun pr => pr := by
    funext pr
    rfl
  rw [hcomp, List.map_id']

/-- C5: over a batch of n discovered files the per-file progress report
happens exactly n times — once after each file, whatever its outcome — with
the processed count running strictly increasing from 1 to n. -/
theorem C5_progress_accounting :
    ∀ (directory : List Char) (env : List Char → CodecEnv) (mw mh : Nat)
      (q : Int) (webp : Bool) (files : List (List Char × List Char)),
      (processFiles directory env mw mh q webp files).progressEvents
        = List.range' 1 files.length ∧
      (processFiles directory env mw mh q webp files).processed
        = files.length := by
  intro directory env mw mh q webp files
  rw [processFiles, foldl_batchStep]
  simp [initLoopState]

/-- C8: optimize_image is total over its caught failure modes: for every
codec environment it either returns the literal True — exactly when the
try-block body ran through — or returns the raised exception's message as a
string; no exception escapes to the caller. -/
theorem C8_transform_never_propagates :
    ∀ (env : CodecEnv) (mw mh : Nat) (q : Int) (cv : Bool) (p : List Char),
      (optimize_image env mw mh q cv p = .retTrue ∧
        ∃ r, optimize_image_run env mw mh q cv p = .ok r) ∨
      (∃ m, optimize_image env mw mh q cv p = .retErr m ∧
        optimize_image_run env mw mh q cv p = .error m) := by
  intro env mw mh q cv p
  cases hr : optimize_image_run env mw mh q cv p with
  | ok r => exact .inl ⟨by simp [optimize_image, hr], r, rfl⟩
  | error m => exact .inr ⟨m, by simp [optimize_image, hr], rfl⟩

/-! ## Claim theorem: resize-to-fit (C4) -/

/-- Modelled from the spec: the claim's "aspect ratio is preserved within
rounding tolerance" — one output dimension is the floor-rounded
proportional image of the other under the original w:h ratio. -/
def aspect_within_rounding (w h ow oh : Nat) : Prop :=
  (w * oh ≤ h * ow ∧ h * ow < w * (oh + 1)) ∨
  (h * ow ≤ w * oh ∧ w * oh < h * (ow + 1))

/-- C4: resize-to-fit never upscales and preserves aspect ratio: an image
already within the bounds keeps its dimensions; otherwise the output fits
(its larger dimension is at most the larger bound), at least one output
dimension exactly equals its bound, and the aspect ratio is preserved up to
floor rounding.  Image dimensions are positive, as are the bounds. -/
theorem C4_resize_to_fit_spec (w h bw bh : Nat)
    (hw : 0 < w) (hh : 0 < h) (hbw : 0 < bw) (hbh : 0 < bh) :
    (w ≤ bw ∧ h ≤ bh → resize_to_fit w h bw bh = (w, h)) ∧
    (¬(w ≤ bw ∧ h ≤ bh) →
      max (resize_to_fit w h bw bh).1 (resize_to_fit w h bw bh).2
          ≤ max bw bh ∧
      ((resize_to_fit w h bw bh).1 = bw ∨ (resize_to_fit w h bw bh).2 = bh) ∧
      aspect_within_rounding w h (resize_to_fit w h bw bh).1
        (resize_to_fit w h bw bh).2) := by
  constructor
  · intro hfit
    simp [resize_to_fit, hfit]
  · intro hnofit
    by_cases hbr : bw * h ≤ bh * w
    · have hres : resize_to_fit w h bw bh = (bw, h * bw / w) := by
        simp [resize_to_fit, hnofit, hbr]
      rw [hres]
      have hle : h * bw / w ≤ bh := by
        have hbr1 : h * bw ≤ bh * w := by
          rw [Nat.mul_comm h bw]
          exact hbr
        have h1 : h * bw / w ≤ bh * w / w := Nat.div_le_div_right hbr1
        rwa [Nat.mul_div_cancel bh hw] at h1
      refine ⟨max_le (le_max_left _ _) (le_trans hle (le_max_right _ _)),
        Or.inl rfl, Or.inl ⟨?_, ?_⟩⟩
      · calc w * (h * bw / w) = h * bw / w * w := Nat.mul_comm _ _
          _ ≤ h * bw := Nat.div_mul_le_self _ _
      · calc h * bw = w * (h * bw / w) + h * bw % w :=
              (Nat.div_add_mod (h * bw) w).symm
          _ < w * (h * bw / w) + w :=
              Nat.add_lt_add_left (Nat.mod_lt _ hw) _
          _ = w * (h * bw / w + 1) := by ring
    · have hres : resize_to_fit w h bw bh = (w * bh / h, bh) := by
        simp [resize_to_fit, hnofit, hbr]
      rw [hres]
      have hbr2 : bh * w ≤ bw * h := le_of_not_le hbr
      have hle : w * bh / h ≤ bw := by
        have hbr3 : w * bh ≤ bw * h := by
          rw [Nat.mul_comm w bh]
          exact hbr2
        have h1 : w * bh / h ≤ bw * h / h := Nat.div_le_div_right hbr3
        rwa [Nat.mul_div_cancel bw hh] at h1
      refine ⟨max_le (le_trans hle (le_max_left _ _)) (le_max_right _ _),
        Or.inr rfl, Or.inr ⟨?_, ?_⟩⟩
      · calc h * (w * bh / h) = w * bh / h * h := Nat.mul_comm _ _
          _ ≤ w * bh := Nat.div_mul_le_self _ _
      · calc w * bh = h * (w * bh / h) + w * bh % h :=
              (Nat.div_add_mod (w * bh) h).symm
          _ < h * (w * bh / h) + h :=
              Nat.add_lt_add_left (Nat.mod_lt _ hh) _
          _ = h * (w * bh / h + 1) := by ring

/-- C4 witness: a 4x2 image against 2x2 bounds exceeds the bounds and is
resized to 2x1. -/
theorem C4_resize_to_fit_spec_witness :
    (0 : Nat) < 4 ∧ (0 : Nat) < 2 ∧ (0 : Nat) < 2 ∧ (0 : Nat) < 2 ∧
    ((4 ≤ 2 ∧ 2 ≤ 2 → resize_to_fit 4 2 2 2 = (4, 2)) ∧
      (¬(4 ≤ 2 ∧ 2 ≤ 2) →
        max (resize_to_fit 4 2 2 2).1 (resize_to_fit 4 2 2 2).2 ≤ max 2 2 ∧
        ((resize_to_fit 4 2 2 2).1 = 2 ∨ (resize_to_fit 4 2 2 2).2 = 2) ∧
        aspect_within_rounding 4 2 (resize_to_fit 4 2 2 2).1
          (resize_to_fit 4 2 2 2).2)) :=
  ⟨by decide, by decide, by decide, by decide,
   C4_resize_to_fit_spec 4 2 2 2 (by decide) (by decide) (by decide)
     (by decide)⟩

/-! ## Claim theorem: empty-field defaulting (C10) -/

/-- Following the claim's words (C10), for comparison with the code's
pre-flight: the batch aborts pre-flight exactly when some field holds
non-empty text that is not an integer, or the parsed-or-defaulted
dimensions are non-positive. -/
def preflightAbortPerClaim (wT hT qT : List Char) : Bool :=
  (!wT.isEmpty && (pyInt wT).isNone) ||
  (!hT.isEmpty && (pyInt hT).isNone) ||
  (!qT.isEmpty && (pyInt qT).isNone) ||
  (match fieldValue wT 800, fieldValue hT 800 with
   | some w, some h => decide (w ≤ 0) || decide (h ≤ 0)
   | _, _ => false)

/-- The claim's "non-empty non-integer text" test coincides with the failure
of the code's `int(text or default)` read. -/
lemma abortField (t : List Char) (d : Int) :
    (!t.isEmpty && (pyInt t).isNone) = (fieldValue t d).isNone := by
  unfold fieldValue
  by_cases h : t = [] <;> simp [h]

/-- C10: an empty width, height, or quality field behaves exactly like the
default text "800", "800", "85" respectively (so the all-empty batch
proceeds with 800x800 quality 85), and the pre-flight aborts precisely on
non-empty non-integer text or non-positive parsed dimensions. -/
theorem C10_empty_field_defaulting :
    (∀ hT qT, preflight [] hT qT = preflight "800".toList hT qT) ∧
    (∀ wT qT, preflight wT [] qT = preflight wT "800".toList qT) ∧
    (∀ wT hT, preflight wT hT [] = preflight wT hT "85".toList) ∧
    preflight [] [] [] = some (800, 800, 85) ∧
    (∀ wT hT qT,
      preflight wT hT qT = none ↔ preflightAbortPerClaim wT hT qT = true) := by
  refine ⟨?_, ?_, ?_, by decide, ?_⟩
  · intro hT qT
    unfold preflight
    rw [show fieldValue [] 800 = fieldValue "800".toList 800 from by decide]
  · intro wT qT
    unfold preflight
    rw [show fieldValue [] 800 = fieldValue "800".toList 800 from by decide]
  · intro wT hT
    unfold preflight
    rw [show fieldValue [] 85 = fieldValue "85".toList 85 from by decide]
  · intro wT hT qT
    unfold preflight preflightAbortPerClaim
    rw [abortField wT 800, abortField hT 800, abortField qT 85]
    cases hw : fieldValue wT 800 with
    | none => simp [hw]
    | some w =>
      cases hh : fieldValue hT 800 with
      | none => simp [hw, hh]
      | some h =>
        cases hq : fieldValue qT 85 with
        | none => simp [hw, hh, hq]
        | some q =>
          by_cases hle : w ≤ 0 ∨ h ≤ 0
          · simp [hw, hh, hq, hle]
          · simp [hw, hh, hq, hle]

/-! ## Claim theorems: discovery (C7, C9) -/

/-- The tree holds a regular file named n at the relative directory prefix
pre: pre is empty for a direct child, and "d/" ++ deeper-prefix inside the
subdirectory d. -/
inductive HasFileAt : Entries → List Char → List Char → Prop where
  | fileHere (n : List Char) (rest : Entries) : HasFileAt (.file n rest) [] n
  | fileLater (m : List Char) (rest : Entries) (pre n : List Char) :
      HasFileAt rest pre n → HasFileAt (.file m rest) pre n
  | inDir (d : List Char) (sub rest : Entries) (pre n : List Char) :
      HasFileAt sub pre n → HasFileAt (.dir d sub rest) (d ++ '/' :: pre) n
  | dirLater (d : List Char) (sub rest : Entries) (pre n : List Char) :
      HasFileAt rest pre n → HasFileAt (.dir d sub rest) pre n

/-- The pairs yielded by the os.walk traversal are exactly the regular files
of the tree, each with its relative directory prefix appended to the
starting prefix. -/
lemma mem_walkPairs (es : Entries) :
    ∀ (pre p n : List Char),
      (p, n) ∈ walkPairs pre es ↔
        ∃ pre2, HasFileAt es pre2 n ∧ p = pre ++ pre2 := by
  induction es with
  | nil =>
    intro pre p n
    simp only [walkPairs, filesOf, walkSub, List.map_nil, List.append_nil,
      List.not_mem_nil, false_iff]
    rintro ⟨pre2, h, hp⟩
    cases h
  | file m rest ih =>
    intro pre p n
    have hstep : walkPairs pre (.file m rest) = (pre, m) :: walkPairs pre rest := by
      simp [walkPairs, filesOf, walkSub]
    rw [hstep]
    simp only [List.mem_cons]
    constructor
    · rintro (heq | hmem)
      · rw [Prod.mk.injEq] at heq
        obtain ⟨hp, hn⟩ := heq
        refine ⟨[], ?_, by simp [hp]⟩
        rw [hn]
        exact .fileHere m rest
      · obtain ⟨pre2, hh, hp⟩ := (ih pre p n).mp hmem
        exact ⟨pre2, .fileLater m rest pre2 n hh, hp⟩
    · rintro ⟨pre2, hh, hp⟩
      cases hh with
      | fileHere => left; simp [hp]
      | fileLater _ _ _ _ h2 =>
        right
        exact (ih pre p n).mpr ⟨pre2, h2, hp⟩
  | dir d sub rest ihsub ihrest =>
    intro pre p n
    have hstep : (p, n) ∈ walkPairs pre (.dir d sub rest) ↔
        (p, n) ∈ walkPairs (pre ++ d ++ ['/']) sub ∨
        (p, n) ∈ walkPairs pre rest := by
      simp only [walkPairs, filesOf, walkSub, List.mem_append]
      tauto
    rw [hstep]
    constructor
    · rintro (hmem | hmem)
      · obtain ⟨pre2, hh, hp⟩ := (ihsub (pre ++ d ++ ['/']) p n).mp hmem
        refine ⟨d ++ '/' :: pre2, .inDir d sub rest pre2 n hh, ?_⟩
        simp only [hp, List.append_assoc, List.singleton_append]
      · obtain ⟨pre2, hh, hp⟩ := (ihrest pre p n).mp hmem
        exact ⟨pre2, .dirLater d sub rest pre2 n hh, hp⟩
    · rintro ⟨pre2, hh, hp⟩
      cases hh with
      | inDir _ _ _ pre3 _ h2 =>
        left
        refine (ihsub (pre ++ d ++ ['/']) p n).mpr ⟨pre3, h2, ?_⟩
        simp only [hp, List.append_assoc, List.singleton_append]
      | dirLater _ _ _ _ _ h2 =>
        right
        exact (ihrest pre p n).mpr ⟨pre2, h2, hp⟩

/-- Membership in flat (non-recursive) discovery: exactly the direct
children that are regular files with an image extension, the relative path
being the bare filename. -/
lemma mem_get_all_flat (directory : List Char) (tree : Entries)
    (full rel : List Char) :
    (full, rel) ∈ get_all_image_files directory tree false ↔
      ∃ n, (n, true) ∈ listdir tree ∧ is_image_file n = true ∧
        full = joinPath directory n ∧ rel = n := by
  unfold get_all_image_files
  simp only [Bool.false_eq_true, if_false, List.mem_filterMap]
  constructor
  · rintro ⟨⟨n, b⟩, hmem, hf⟩
    dsimp only at hf
    by_cases hc : (b && is_image_file n) = true
    · rw [if_pos hc] at hf
      rw [Option.some.injEq, Prod.mk.injEq] at hf
      obtain ⟨hb, him⟩ := Bool.and_eq_true_iff.mp hc
      subst hb
      exact ⟨n, hmem, him, hf.1.symm, hf.2.symm⟩
    · rw [if_neg hc] at hf
      exact absurd hf (by simp)
  · rintro ⟨n, hmem, him, hfull, hrel⟩
    exact ⟨(n, true), hmem, by simp [him, hfull, hrel]⟩

/-- Membership in recursive discovery: exactly the regular files anywhere in
the tree with an image extension, the relative path preserving the
intermediate directory segments and the full path being the join of the
scanned directory with it. -/
lemma mem_get_all_recursive (directory : List Char) (tree : Entries)
    (full rel : List Char) :
    (full, rel) ∈ get_all_image_files directory tree true ↔
      ∃ pre n, HasFileAt tree pre n ∧ is_image_file n = true ∧
        rel = pre ++ n ∧ full = joinPath directory rel := by
  unfold get_all_image_files
  simp only [if_true, List.mem_filterMap]
  constructor
  · rintro ⟨⟨p, n⟩, hmem, hf⟩
    dsimp only at hf
    by_cases hc : is_image_file n = true
    · rw [if_pos hc] at hf
      rw [Option.some.injEq, Prod.mk.injEq] at hf
      obtain ⟨pre2, hh, hp⟩ := (mem_walkPairs tree [] p n).mp hmem
      rw [List.nil_append] at hp
      subst hp
      exact ⟨p, n, hh, hc, hf.2.symm, by rw [← hf.2, ← hf.1]⟩
    · rw [if_neg hc] at hf
      exact absurd hf (by simp)
  · rintro ⟨pre, n, hh, him, hrel, hfull⟩
    refine ⟨(pre, n), (mem_walkPairs tree [] pre n).mpr ⟨pre, hh, by simp⟩, ?_⟩
    simp [him, hrel, hfull]

/-- C7: a file is a discovery candidate iff its extension, lower-cased, is
one of the seven image extensions; non-recursive discovery returns exactly
the direct children of the root that are regular image files, with the
relative path equal to the filename; recursive discovery returns exactly
the image files of all transitive subdirectories, the relative path
preserving the intermediate directory segments. -/
theorem C7_discovery_classification_and_modes :
    (∀ name : List Char,
      is_image_file name = true ↔
        ((splitext name).2.map Char.toLower = ".jpg".toList ∨
         (splitext name).2.map Char.toLower = ".jpeg".toList ∨
         (splitext name).2.map Char.toLower = ".png".toList ∨
         (splitext name).2.map Char.toLower = ".gif".toList ∨
         (splitext name).2.map Char.toLower = ".bmp".toList ∨
         (splitext name).2.map Char.toLower = ".tiff".toList ∨
         (splitext name).2.map Char.toLower = ".webp".toList)) ∧
    (∀ (directory : List Char) (tree : Entries) (full rel : List Char),
      (full, rel) ∈ get_all_image_files directory tree false ↔
        ∃ n, (n, true) ∈ listdir tree ∧ is_image_file n = true ∧
          full = joinPath directory n ∧ rel = n) ∧
    (∀ (directory : List Char) (tree : Entries) (full rel : List Char),
      (full, rel) ∈ get_all_image_files directory tree true ↔
        ∃ pre n, HasFileAt tree pre n ∧ is_image_file n = true ∧
          rel = pre ++ n ∧ full = joinPath directory rel) := by
  refine ⟨?_, mem_get_all_flat, mem_get_all_recursive⟩
  intro name
  unfold is_image_file image_extensions
  simp [List.contains, List.elem_iff]

/-- C9: non-recursive discovery returns only directory entries that are
regular files — every returned pair comes from an entry the isfile test
accepted, so a subdirectory named like an image (e.g. "photos.jpg") is
never a candidate, as the closing concrete instance shows. -/
theorem C9_flat_discovery_excludes_directories :
    (∀ (directory : List Char) (tree : Entries) (full rel : List Char),
      (full, rel) ∈ get_all_image_files directory tree false →
        (rel, true) ∈ listdir tree) ∧
    get_all_image_files "/r".toList
      (.dir "photos.jpg".toList .nil .nil) false = [] := by
  refine ⟨?_, by decide⟩
  intro directory tree full rel hmem
  obtain ⟨n, hmem2, _, _, hrel⟩ := (mem_get_all_flat directory tree full rel).mp hmem
  rwa [hrel]

/-- C9 witness: for the tree holding the single regular file a.jpg, the
returned pair is a listed regular file. -/
theorem C9_flat_discovery_excludes_directories_witness :
    ("/r/a.jpg".toList, "a.jpg".toList)
        ∈ get_all_image_files "/r".toList (.file "a.jpg".toList .nil) false ∧
    ("a.jpg".toList, true) ∈ listdir (.file "a.jpg".toList .nil) :=
  ⟨by decide,
   C9_flat_discovery_excludes_directories.1 "/r".toList
     (.file "a.jpg".toList .nil) "/r/a.jpg".toList "a.jpg".toList (by decide)⟩

/-! ## Claim theorem: format conversion (C6) -/

lemma splitAtLastDot_eq_none (l : List Char) (h : '.' ∉ l) :
    splitAtLastDot l = none := by
  induction l with
  | nil => rfl
  | cons c rest ih =>
    have hr : '.' ∉ rest := fun hm => h (List.mem_cons_of_mem c hm)
    have hc : ¬ c = '.' := fun hc => h (by rw [hc]; exact List.mem_cons_self _ _)
    simp [splitAtLastDot, ih hr, hc]

lemma splitAtLastDot_append_last (a b : List Char) (hb : '.' ∉ b) :
    splitAtLastDot (a ++ '.' :: b) = some (a, '.' :: b) := by
  induction a with
  | nil => simp [splitAtLastDot, splitAtLastDot_eq_none b hb]
  | cons c a2 ih => simp [splitAtLastDot, ih]

lemma splitAtLastDot_decomp (l : List Char) :
    ∀ a b, splitAtLastDot l = some (a, b) → l = a ++ b := by
  induction l with
  | nil => intro a b h; simp [splitAtLastDot] at h
  | cons c rest ih =>
    intro a b h
    rw [splitAtLastDot] at h
    cases hres : splitAtLastDot rest with
    | some pr =>
      rw [hres] at h
      rw [Option.some.injEq, Prod.mk.injEq] at h
      obtain ⟨ha, hbb⟩ := h
      rw [← ha, ← hbb, List.cons_append, ← ih pr.1 pr.2 hres]
    | none =>
      rw [hres] at h
      by_cases hc : c = '.'
      · rw [if_pos hc] at h
        rw [Option.some.injEq, Prod.mk.injEq] at h
        rw [← h.1, ← h.2, List.nil_append]
      · rw [if_neg hc] at h
        exact absurd h (by simp)

lemma splitAtLastDot_snd_head (l : List Char) :
    ∀ a b, splitAtLastDot l = some (a, b) → b.head? = some '.' := by
  induction l with
  | nil => intro a b h; simp [splitAtLastDot] at h
  | cons c rest ih =>
    intro a b h
    rw [splitAtLastDot] at h
    cases hres : splitAtLastDot rest with
    | some pr =>
      rw [hres] at h
      rw [Option.some.injEq, Prod.mk.injEq] at h
      rw [← h.2]
      exact ih pr.1 pr.2 hres
    | none =>
      rw [hres] at h
      by_cases hc : c = '.'
      · rw [if_pos hc] at h
        rw [Option.some.injEq, Prod.mk.injEq] at h
        rw [← h.2, List.head?_cons, hc]
      · rw [if_neg hc] at h
        exact absurd h (by simp)

lemma splitAtLastSep_cons_of_mem (c : Char) (rest : List Char)
    (h : '/' ∈ rest) :
    splitAtLastSep (c :: rest)
      = (c :: (splitAtLastSep rest).1, (splitAtLastSep rest).2) := by
  simp [splitAtLastSep, h]

lemma splitAtLastSep_cons_slash (rest : List Char) (h : '/' ∉ rest) :
    splitAtLastSep ('/' :: rest) = (['/'], rest) := by
  simp [splitAtLastSep, h]

lemma splitAtLastSep_cons_other (c : Char) (rest : List Char)
    (h : '/' ∉ rest) (hc : ¬ c = '/') :
    splitAtLastSep (c :: rest) = ([], c :: rest) := by
  simp [splitAtLastSep, h, hc]

lemma splitAtLastSep_snd_not_mem (l : List Char) :
    '/' ∉ (splitAtLastSep l).2 := by
  induction l with
  | nil => simp [splitAtLastSep]
  | cons c rest ih =>
    by_cases hc : '/' ∈ rest
    · rw [splitAtLastSep_cons_of_mem c rest hc]
      exact ih
    · by_cases hc2 : c = '/'
      · subst hc2
        rw [splitAtLastSep_cons_slash rest hc]
        exact hc
      · rw [splitAtLastSep_cons_other c rest hc hc2]
        simp only [List.mem_cons]
        rintro (h | h)
        · exact hc2 h.symm
        · exact hc h

lemma splitAtLastSep_fst_last (l : List Char) (hl : '/' ∈ l) :
    (splitAtLastSep l).1.getLast? = some '/' := by
  induction l with
  | nil => cases hl
  | cons c rest ih =>
    by_cases hc : '/' ∈ rest
    · have hrec := ih hc
      have hne : (splitAtLastSep rest).1 ≠ [] := by
        intro h0
        rw [h0] at hrec
        simp at hrec
      obtain ⟨y, t2, ht⟩ := List.exists_cons_of_ne_nil hne
      rw [splitAtLastSep_cons_of_mem c rest hc]
      rw [ht, List.getLast?_cons_cons, ← ht]
      exact hrec
    · have hcr : c = '/' := by
        rcases List.mem_cons.mp hl with h | h
        · exact h.symm
        · exact absurd h hc
      subst hcr
      rw [splitAtLastSep_cons_slash rest hc]
      simp

lemma splitAtLastSep_sepFree (x : List Char) (hx : '/' ∉ x) :
    splitAtLastSep x = ([], x) := by
  cases x with
  | nil => rfl
  | cons c rest =>
    have h1 : '/' ∉ rest := fun h => hx (List.mem_cons_of_mem c h)
    have h2 : ¬ c = '/' := fun h => hx (by rw [h]; exact List.mem_cons_self _ _)
    exact splitAtLastSep_cons_other c rest h1 h2

lemma splitAtLastSep_append (d : List Char) :
    ∀ x : List Char, d.getLast? = some '/' → '/' ∉ x →
      splitAtLastSep (d ++ x) = (d, x) := by
  induction d with
  | nil => intro x hd hx; simp at hd
  | cons c d2 ih =>
    intro x hd hx
    cases d2 with
    | nil =>
      rw [List.getLast?_singleton, Option.some.injEq] at hd
      subst hd
      rw [List.singleton_append]
      exact splitAtLastSep_cons_slash x hx
    | cons y d3 =>
      rw [List.getLast?_cons_cons] at hd
      have hmem : '/' ∈ (y :: d3) := List.mem_of_mem_getLast? hd
      have hmem2 : '/' ∈ (y :: d3) ++ x := List.mem_append_left _ hmem
      rw [List.cons_append, splitAtLastSep_cons_of_mem c _ hmem2, ih x hd hx]

lemma takeWhile_append_all (pred : Char → Bool) (t x : List Char)
    (ht : ∀ c ∈ t, pred c = true) :
    (t ++ x).takeWhile pred = t ++ x.takeWhile pred := by
  induction t with
  | nil => simp
  | cons c t2 ih =>
    rw [List.cons_append,
      List.takeWhile_cons_of_pos (ht c (List.mem_cons_self c t2)),
      ih (fun c2 hc2 => ht c2 (List.mem_cons_of_mem c hc2)), List.cons_append]

lemma dropWhile_append_all (pred : Char → Bool) (t x : List Char)
    (ht : ∀ c ∈ t, pred c = true) :
    (t ++ x).dropWhile pred = x.dropWhile pred := by
  induction t with
  | nil => simp
  | cons c t2 ih =>
    rw [List.cons_append,
      List.dropWhile_cons_of_pos (ht c (List.mem_cons_self c t2)),
      ih (fun c2 hc2 => ht c2 (List.mem_cons_of_mem c hc2))]

/-- Appending ".webp" to the splitext stem of a path that had a nonempty
extension yields a path splitting back into that stem and ".webp". -/
lemma splitext_stem_webp (p : List Char) (he : (splitext p).2 ≠ []) :
    splitext ((splitext p).1 ++ webpSuffix) = ((splitext p).1, webpSuffix) := by
  obtain ⟨d, b, hdb⟩ : ∃ d b, splitAtLastSep p = (d, b) := ⟨_, _, rfl⟩
  have hb : '/' ∉ b := by
    have h0 := splitAtLastSep_snd_not_mem p
    rwa [hdb] at h0
  have hsplit : splitext p = (d ++ (splitextBase b).1, (splitextBase b).2) := by
    simp [splitext, hdb]
  cases hdot : splitAtLastDot (b.dropWhile (fun c => c = '.')) with
  | none =>
    exfalso
    apply he
    rw [hsplit]
    simp [splitextBase, hdot]
  | some pr =>
    obtain ⟨r1, e⟩ := pr
    have hsB : splitextBase b = (b.takeWhile (fun c => c = '.') ++ r1, e) := by
      simp [splitextBase, hdot]
    have hre : b.dropWhile (fun c => c = '.') = r1 ++ e :=
      splitAtLastDot_decomp _ r1 e hdot
    have heh : e.head? = some '.' := splitAtLastDot_snd_head _ r1 e hdot
    obtain ⟨c0, r12, hr1⟩ : ∃ c0 r12, r1 = c0 :: r12 := by
      cases hr : r1 with
      | nil =>
        exfalso
        have hh := List.head?_dropWhile_not (fun c => decide (c = '.')) b
        rw [hre, hr, List.nil_append, heh] at hh
        simp at hh
      | cons c0 r12 => exact ⟨c0, r12, rfl⟩
    have hc0 : ¬ c0 = '.' := by
      have hh := List.head?_dropWhile_not (fun c => decide (c = '.')) b
      rw [hre, hr1, List.cons_append, List.head?_cons] at hh
      simpa using hh
    have ht_all : ∀ y ∈ b.takeWhile (fun c => c = '.'),
        decide (y = '.') = true :=
      fun y hy =>
        @List.mem_takeWhile_imp Char (fun c => decide (c = '.')) b y hy
    have hsep_t : '/' ∉ b.takeWhile (fun c => c = '.') :=
      fun hm => hb (List.Sublist.mem hm (List.takeWhile_sublist _))
    have hsep_r1 : '/' ∉ r1 := by
      intro hm
      apply hb
      have hm2 : '/' ∈ b.dropWhile (fun c => c = '.') := by
        rw [hre]
        exact List.mem_append_left _ hm
      exact List.Sublist.mem hm2 (List.dropWhile_sublist _)
    have hsep_w : '/' ∉ webpSuffix := by decide
    have hsep_x :
        '/' ∉ b.takeWhile (fun c => c = '.') ++ (r1 ++ webpSuffix) := by
      intro hm
      rcases List.mem_append.mp hm with h2 | h2
      · exact hsep_t h2
      · rcases List.mem_append.mp h2 with h3 | h3
        · exact hsep_r1 h3
        · exact hsep_w h3
    have hstep1 :
        splitAtLastSep
            (d ++ (b.takeWhile (fun c => c = '.') ++ (r1 ++ webpSuffix)))
          = (d, b.takeWhile (fun c => c = '.') ++ (r1 ++ webpSuffix)) := by
      by_cases hp : '/' ∈ p
      · have hlast := splitAtLastSep_fst_last p hp
        rw [hdb] at hlast
        exact splitAtLastSep_append d _ hlast hsep_x
      · have h0 := splitAtLastSep_sepFree p hp
        rw [hdb] at h0
        have hd0 : d = [] := by
          have h1 := congrArg Prod.fst h0
          simpa using h1
        rw [hd0, List.nil_append]
        exact splitAtLastSep_sepFree _ hsep_x
    have hdropX :
        (b.takeWhile (fun c => c = '.') ++ (r1 ++ webpSuffix)).dropWhile
            (fun c => c = '.')
          = r1 ++ webpSuffix := by
      rw [dropWhile_append_all _ _ _ ht_all, hr1, List.cons_append,
        List.dropWhile_cons_of_neg (by simp [hc0]), ← List.cons_append, ← hr1]
    have htakeX :
        (b.takeWhile (fun c => c = '.') ++ (r1 ++ webpSuffix)).takeWhile
            (fun c => c = '.')
          = b.takeWhile (fun c => c = '.') := by
      rw [takeWhile_append_all _ _ _ ht_all, hr1, List.cons_append,
        List.takeWhile_cons_of_neg (by simp [hc0]), List.append_nil]
    have hdotX : splitAtLastDot (r1 ++ webpSuffix) = some (r1, webpSuffix) := by
      have hw : webpSuffix = '.' :: ['w', 'e', 'b', 'p'] := rfl
      rw [hw]
      exact splitAtLastDot_append_last r1 _ (by decide)
    have hsB2 :
        splitextBase (b.takeWhile (fun c => c = '.') ++ (r1 ++ webpSuffix))
          = (b.takeWhile (fun c => c = '.') ++ r1, webpSuffix) := by
      simp [splitextBase, hdropX, hdotX, htakeX]
    rw [hsplit]
    dsimp only
    rw [hsB]
    dsimp only
    rw [List.append_assoc d _ webpSuffix,
      List.append_assoc (b.takeWhile (fun c => c = '.')) r1 webpSuffix]
    simp [splitext, hstep1, hsB2]

/-- C6: when WebP conversion is requested, the output file's extension is
".webp" whatever the input extension was — the original extension is
stripped from the stem; when conversion is not requested the output path,
hence its extension, is unchanged. -/
theorem C6_format_conversion_extension (p : List Char) :
    ((splitext p).2 ≠ [] →
      (splitext (final_output_path p true)).2 = webpSuffix) ∧
    final_output_path p false = p := by
  constructor
  · intro he
    have h := splitext_stem_webp p he
    simp only [final_output_path, if_true]
    rw [h]
  · simp [final_output_path]

/-- C6 witness: for the batch's own output path /r/optimized/a.jpg the
converted path's extension is ".webp", and the unconverted path is
untouched. -/
theorem C6_format_conversion_extension_witness :
    (splitext "/r/optimized/a.jpg".toList).2 ≠ [] ∧
    (splitext (final_output_path "/r/optimized/a.jpg".toList true)).2
      = webpSuffix ∧
    final_output_path "/r/optimized/a.jpg".toList false
      = "/r/optimized/a.jpg".toList :=
  ⟨by decide,
   (C6_format_conversion_extension "/r/optimized/a.jpg".toList).1 (by decide),
   (C6_format_conversion_extension "/r/optimized/a.jpg".toList).2⟩
